import Mathlib

/-!
Verification of the BLMM batched iterative parameter-estimation engine
(`lib/est3d.py`) and the estimation-stage dispatcher (`src/blmm_estimate.py`).

The four estimator variants `FS3D`, `pFS3D`, `SFS3D`, `pSFS3D` share one
iteration skeleton: per voxel, a numeric step produces a candidate parameter
vector and a new log-likelihood; the step size `lam` is halved for voxels whose
log-likelihood decreased; voxels whose absolute log-likelihood change is below
the tolerance are marked converged, their parameters are scattered into the
output buffer at their original voxel index, and all per-voxel working arrays
are compacted to the non-converged voxels.  We embed this skeleton once,
generic in the per-voxel numeric step (the four variants differ only in that
step), and embed the variant-specific update formulas separately.

Numbers are rationals; the shared matrix kernels (`lib/npMatrix3d.py`,
`lib/npMatrix2d.py`) are not part of the sources and are modelled from the
spec where a claim needs them.
-/

namespace BLMM

/-- Per-voxel working record of the iteration drivers in `lib/est3d.py`:
`idx` is the original voxel index (voxel identity is preserved through
compaction), `params` the current parameter vector (kept abstract: the
bookkeeping never inspects it), `lam` the step size, and `llhprev`/`llhcurr`
the two most recent log-likelihood values. -/
structure Voxel (P : Type) where
  idx : ℕ
  params : P
  lam : ℚ
  llhprev : ℚ
  llhcurr : ℚ
  deriving Repr, DecidableEq

/-- State of one estimation call: the compacted list of active (non-converged)
voxels, and the fixed-size output buffer `savedparams` indexed by original
voxel index.  `none` records that a row has never been written. -/
structure DriverState (P : Type) where
  active : List (Voxel P)
  saved : List (Option P)
  deriving Repr

/-- One voxel's share of an iteration of the drivers: move `llhcurr` to
`llhprev` (est3d.py lines 183, 531, 895, 1223), run the numeric step (the
derivative / information / update / likelihood block of the variant, which
reads the per-voxel data selected by the original index) to obtain the
candidate parameters and the new log-likelihood, and halve the step size
exactly when the likelihood strictly decreased
(`lam[llhprev>llhcurr] = lam[llhprev>llhcurr]/2`, lines 295, 638, 944, 1281).
The candidate parameters are kept unconditionally: there is no rollback. -/
def updVoxel {P : Type} (step : ℕ → P → ℚ → P × ℚ) (v : Voxel P) : Voxel P :=
  let c := step v.idx v.params v.lam
  { idx := v.idx
    params := c.1
    lam := if c.2 < v.llhcurr then v.lam / 2 else v.lam
    llhprev := v.llhcurr
    llhcurr := c.2 }

/-- Convergence mark of est3d.py lines 302, 644, 951, 1287: the voxel is
marked converged when `|llhprev - llhcurr| < tol` (strict). -/
def vConverged {P : Type} (tol : ℚ) (v : Voxel P) : Bool :=
  |v.llhprev - v.llhcurr| < tol

/-- Modelled from the spec: `getConvergedIndices` (in the missing
`lib/npMatrix3d.py`) partitions the active set into converged and
non-converged voxels and reports the original indices of the voxels that
converged during the iteration; the drivers then scatter the converged
parameter vectors into `savedparams` at those original indices (lines
301-308, 644-651, 950-969, 1286-1305).  Here the scatter is a fold of
point-writes at each converged voxel's original index. -/
def writeSaved {P : Type} (buf : List (Option P)) (vs : List (Voxel P)) :
    List (Option P) :=
  vs.foldl (fun b v => b.set v.idx (some v.params)) buf

/-- One full iteration of the shared driver loop body (est3d.py lines
177-365, 522-705, 886-1023, 1214-1360): update every active voxel, write the
voxels that converged this iteration into the output buffer at their original
indices, and compact the active arrays to the non-converged voxels. -/
def driverIter {P : Type} (step : ℕ → P → ℚ → P × ℚ) (tol : ℚ)
    (s : DriverState P) : DriverState P :=
  let upd := s.active.map (updVoxel step)
  { active := upd.filter (fun v => ¬ vConverged tol v)
    saved := writeSaved s.saved (upd.filter (vConverged tol)) }

/-- Loop guard of the drivers (`while np.any(np.abs(llhprev-llhcurr)>tol)`,
est3d.py lines 177, 522, 886, 1214): iterate while some active voxel's
log-likelihood change strictly exceeds the tolerance. -/
def anyNotConv {P : Type} (tol : ℚ) (s : DriverState P) : Bool :=
  s.active.any (fun v => tol < |v.llhprev - v.llhcurr|)

/-- The driver while-loop, with explicit fuel (the source has no iteration
cap; fuel only truncates, it never changes an iteration that does run). -/
def driverRun {P : Type} (step : ℕ → P → ℚ → P × ℚ) (tol : ℚ) :
    ℕ → DriverState P → DriverState P
  | 0, s => s
  | n + 1, s =>
      if anyNotConv tol s then driverRun step tol n (driverIter step tol s)
      else s

/-- Initial driver state (est3d.py lines 156-169 and analogues): all `v`
voxels active in input order, step size one, log-likelihood pair `(-10, 10)`,
output buffer unwritten. -/
def initState {P : Type} (v : ℕ) (initP : ℕ → P) : DriverState P :=
  { active := (List.range v).map fun j => ⟨j, initP j, 1, -10, 10⟩
    saved := List.replicate v none }

theorem length_writeSaved {P : Type} (vs : List (Voxel P)) (buf : List (Option P)) :
    (writeSaved buf vs).length = buf.length := by
  induction vs generalizing buf with
  | nil => rfl
  | cons w t ih => simpa [writeSaved, List.foldl_cons] using ih (buf.set w.idx (some w.params))

theorem writeSaved_notMem {P : Type} (vs : List (Voxel P)) (buf : List (Option P)) (j : ℕ)
    (h : ∀ v ∈ vs, v.idx ≠ j) : (writeSaved buf vs)[j]? = buf[j]? := by
  induction vs generalizing buf with
  | nil => rfl
  | cons w t ih =>
      have hw : w.idx ≠ j := h w (by simp)
      have := ih (buf.set w.idx (some w.params)) (fun v hv => h v (by simp [hv]))
      simpa [writeSaved, List.foldl_cons, List.getElem?_set_ne hw] using this

theorem writeSaved_mem {P : Type} :
    ∀ (vs : List (Voxel P)) (buf : List (Option P)) (v : Voxel P),
      v ∈ vs → (vs.map Voxel.idx).Nodup → v.idx < buf.length →
      (writeSaved buf vs)[v.idx]? = some (some v.params)
  | [], _, _, hv, _, _ => absurd hv (by simp)
  | w :: t, buf, v, hv, hnd, hlt => by
      have hnd2 : (∀ x ∈ t, ¬ x.idx = w.idx) ∧ (t.map Voxel.idx).Nodup := by
        simpa using hnd
      rcases List.mem_cons.mp hv with h | h
      · subst h
        have hni : ∀ u ∈ t, u.idx ≠ v.idx := fun u hu => hnd2.1 u hu
        have hset : (buf.set v.idx (some v.params))[v.idx]? = some (some v.params) :=
          List.getElem?_set_eq_of_lt _ hlt
        calc (writeSaved buf (v :: t))[v.idx]?
            = (writeSaved (buf.set v.idx (some v.params)) t)[v.idx]? := rfl
          _ = (buf.set v.idx (some v.params))[v.idx]? := writeSaved_notMem t _ _ hni
          _ = some (some v.params) := hset
      · have hlt' : v.idx < (buf.set w.idx (some w.params)).length := by
          simpa [List.length_set] using hlt
        exact writeSaved_mem t (buf.set w.idx (some w.params)) v h hnd2.2 hlt'

theorem idx_map_updVoxel {P : Type} (step : ℕ → P → ℚ → P × ℚ) (l : List (Voxel P)) :
    (l.map (updVoxel step)).map Voxel.idx = l.map Voxel.idx := by
  induction l with
  | nil => rfl
  | cons w t ih => simp [updVoxel, ih]

theorem driverIter_active_idx_sublist {P : Type} (step : ℕ → P → ℚ → P × ℚ) (tol : ℚ)
    (s : DriverState P) :
    ((driverIter step tol s).active.map Voxel.idx).Sublist (s.active.map Voxel.idx) := by
  have h1 : ((driverIter step tol s).active.map Voxel.idx).Sublist
      ((s.active.map (updVoxel step)).map Voxel.idx) :=
    (List.filter_sublist _).map _
  simpa [idx_map_updVoxel] using h1

theorem driverRun_active_idx_sublist {P : Type} (step : ℕ → P → ℚ → P × ℚ) (tol : ℚ)
    (n : ℕ) (s : DriverState P) :
    ((driverRun step tol n s).active.map Voxel.idx).Sublist (s.active.map Voxel.idx) := by
  induction n generalizing s with
  | zero => simp [driverRun]
  | succ n ih =>
      by_cases h : anyNotConv tol s
      · simpa [driverRun, h] using
          ((ih (driverIter step tol s)).trans (driverIter_active_idx_sublist step tol s))
      · simp [driverRun, h]

/-- Write-once invariant of the drivers: every active voxel's original index
is a valid row of the output buffer, active original indices are distinct, and
a row that has been written belongs to no active voxel. -/
def SavedInv {P : Type} (s : DriverState P) : Prop :=
  (∀ v ∈ s.active, v.idx < s.saved.length) ∧
  (s.active.map Voxel.idx).Nodup ∧
  ∀ j : ℕ, (∃ x, s.saved[j]? = some (some x)) → j ∉ s.active.map Voxel.idx

theorem driverIter_mem_active {P : Type} {step : ℕ → P → ℚ → P × ℚ} {tol : ℚ}
    {s : DriverState P} {u : Voxel P} (hu : u ∈ (driverIter step tol s).active) :
    ∃ w ∈ s.active, u = updVoxel step w ∧ vConverged tol u = false := by
  have h1 := List.mem_filter.mp hu
  rcases List.mem_map.mp h1.1 with ⟨w, hw, hwu⟩
  exact ⟨w, hw, hwu.symm, by simpa using h1.2⟩

theorem savedInv_driverIter {P : Type} (step : ℕ → P → ℚ → P × ℚ) (tol : ℚ)
    (s : DriverState P) (hInv : SavedInv s) : SavedInv (driverIter step tol s) := by
  obtain ⟨hlen, hnd, hsep⟩ := hInv
  have hndu : ((s.active.map (updVoxel step)).map Voxel.idx).Nodup := by
    rw [idx_map_updVoxel]; exact hnd
  refine ⟨?_, ?_, ?_⟩
  · intro v hv
    rcases driverIter_mem_active hv with ⟨w, hw, rfl, -⟩
    simpa [driverIter, length_writeSaved, updVoxel] using hlen w hw
  · exact (driverIter_active_idx_sublist step tol s).nodup hnd
  · rintro j ⟨x, hx⟩ hj
    rcases List.mem_map.mp hj with ⟨u, hu, rfl⟩
    rcases driverIter_mem_active hu with ⟨w, hw, rfl, hnc⟩
    have hwid : ∀ z ∈ (s.active.map (updVoxel step)).filter (vConverged tol),
        z.idx ≠ (updVoxel step w).idx := by
      intro z hz
      have hz1 := List.mem_filter.mp hz
      intro hid
      have hzw : z = updVoxel step w :=
        List.inj_on_of_nodup_map hndu hz1.1 (List.mem_map_of_mem _ hw) hid
      rw [hzw, hnc] at hz1
      exact Bool.false_ne_true hz1.2
    have hund : (driverIter step tol s).saved[(updVoxel step w).idx]? =
        s.saved[(updVoxel step w).idx]? := writeSaved_notMem _ _ _ hwid
    rw [hund] at hx
    exact hsep _ ⟨x, hx⟩ (by
      simpa [updVoxel] using List.mem_map_of_mem Voxel.idx hw)

theorem driverIter_saved_mono {P : Type} (step : ℕ → P → ℚ → P × ℚ) (tol : ℚ)
    (s : DriverState P) (hInv : SavedInv s) (j : ℕ) (x : P)
    (h : s.saved[j]? = some (some x)) :
    (driverIter step tol s).saved[j]? = some (some x) := by
  have hj : j ∉ s.active.map Voxel.idx := hInv.2.2 j ⟨x, h⟩
  have hwid : ∀ z ∈ (s.active.map (updVoxel step)).filter (vConverged tol), z.idx ≠ j := by
    intro z hz hid
    have hz1 := List.mem_filter.mp hz
    have : z.idx ∈ (s.active.map (updVoxel step)).map Voxel.idx :=
      List.mem_map_of_mem _ hz1.1
    rw [idx_map_updVoxel, hid] at this
    exact hj this
  calc (driverIter step tol s).saved[j]? = s.saved[j]? := writeSaved_notMem _ _ _ hwid
    _ = some (some x) := h

theorem driverRun_saved_mono {P : Type} (step : ℕ → P → ℚ → P × ℚ) (tol : ℚ)
    (n : ℕ) (s : DriverState P) (hInv : SavedInv s) :
    SavedInv (driverRun step tol n s) ∧
    ∀ (j : ℕ) (x : P), s.saved[j]? = some (some x) →
      (driverRun step tol n s).saved[j]? = some (some x) := by
  induction n generalizing s with
  | zero => exact ⟨hInv, fun _ _ h => h⟩
  | succ n ih =>
      by_cases hg : anyNotConv tol s
      · have h1 := ih (driverIter step tol s) (savedInv_driverIter step tol s hInv)
        refine ⟨by simpa [driverRun, hg] using h1.1, ?_⟩
        intro j x hx
        have := h1.2 j x (driverIter_saved_mono step tol s hInv j x hx)
        simpa [driverRun, hg] using this
      · exact ⟨by simpa [driverRun, hg] using hInv, fun j x hx => by simpa [driverRun, hg] using hx⟩

/-- C6: in every variant, the set of active voxels (by original index) is
monotonically non-increasing: each iteration compacts the working arrays to
the non-converged subset, so after any number of iterations the active
original-index list is a sublist of the initial one, and a voxel absent from
the active set is never re-added. -/
theorem claimC6_active_set_monotone {P : Type} (step : ℕ → P → ℚ → P × ℚ) (tol : ℚ)
    (n : ℕ) (s : DriverState P) :
    ((driverRun step tol n s).active.map Voxel.idx).Sublist (s.active.map Voxel.idx) ∧
    ∀ j : ℕ, j ∉ s.active.map Voxel.idx →
      j ∉ (driverRun step tol n s).active.map Voxel.idx := by
  refine ⟨driverRun_active_idx_sublist step tol n s, fun j hj hmem => ?_⟩
  exact hj ((driverRun_active_idx_sublist step tol n s).subset hmem)

/-- C4: in every variant, when an iteration's new log-likelihood is strictly
lower than the previous one for a voxel, that voxel's step size for the next
iteration is exactly half its previous value (never reset), the candidate
update is still kept (no rollback of parameters), and every voxel surviving
to the next iteration is the image of exactly its own previous record under
the per-voxel update, so no other voxel's step size changes. -/
theorem claimC4_step_halving {P : Type} (step : ℕ → P → ℚ → P × ℚ) (tol : ℚ)
    (s : DriverState P) (v : Voxel P) (hv : v ∈ s.active) :
    ((step v.idx v.params v.lam).2 < v.llhcurr →
        (updVoxel step v).lam = v.lam / 2 ∧
        (updVoxel step v).params = (step v.idx v.params v.lam).1) ∧
    (¬ (step v.idx v.params v.lam).2 < v.llhcurr →
        (updVoxel step v).lam = v.lam ∧
        (updVoxel step v).params = (step v.idx v.params v.lam).1) ∧
    updVoxel step v ∈ s.active.map (updVoxel step) ∧
    (∀ u ∈ (driverIter step tol s).active, ∃ w ∈ s.active, u = updVoxel step w) := by
  refine ⟨fun hdec => ⟨by simp [updVoxel, hdec], rfl⟩,
          fun hndec => ⟨by simp [updVoxel, hndec], rfl⟩,
          List.mem_map_of_mem _ hv, fun u hu => ?_⟩
  rcases driverIter_mem_active hu with ⟨w, hw, rfl, -⟩
  exact ⟨w, hw, rfl⟩

/-- Witness for C4 at a concrete input: one voxel with previous likelihood 5,
new likelihood 0, so its step size is halved from 1 to 1/2 while the candidate
parameter 4 is kept. -/
theorem claimC4_step_halving_witness :
    (updVoxel (fun _ p l => (p + l, 0)) (⟨0, 3, 1, 0, 5⟩ : Voxel ℚ)).lam = 1 / 2 ∧
    (updVoxel (fun _ p l => (p + l, 0)) (⟨0, 3, 1, 0, 5⟩ : Voxel ℚ)).params = 4 := by
  have h := claimC4_step_halving (fun _ p l => (p + l, 0)) 1
    (⟨[⟨0, 3, 1, 0, 5⟩], [none]⟩ : DriverState ℚ) ⟨0, 3, 1, 0, 5⟩ (by simp)
  have h2 := h.1 (by norm_num)
  exact ⟨h2.1, by rw [h2.2]; norm_num⟩

theorem savedInv_initState {P : Type} (v : ℕ) (initP : ℕ → P) :
    SavedInv (initState v initP) := by
  refine ⟨?_, ?_, ?_⟩
  · intro w hw
    have hw' : ∃ a, a < v ∧ (⟨a, initP a, 1, -10, 10⟩ : Voxel P) = w := by
      simpa [initState] using hw
    rcases hw' with ⟨a, ha, rfl⟩
    simpa [initState] using ha
  · have hmap : (((List.range v).map
        fun j => (⟨j, initP j, 1, -10, 10⟩ : Voxel P)).map Voxel.idx) = List.range v := by
      rw [List.map_map]
      have hc : (Voxel.idx ∘ fun j => (⟨j, initP j, 1, -10, 10⟩ : Voxel P)) = id := rfl
      rw [hc, List.map_id]
    simpa [initState, hmap] using List.nodup_range v
  · rintro j ⟨x, hx⟩ -
    have : (List.replicate v (none : Option P))[j]? = some (some x) := by
      simpa [initState] using hx
    rcases lt_or_ge j v with hlt | hge
    · rw [List.getElem?_replicate, if_pos hlt] at this
      exact Option.noConfusion (Option.some.inj this)
    · rw [List.getElem?_replicate, if_neg (by omega)] at this
      exact Option.noConfusion this

/-- C7: in every variant, each output-buffer row is written at most once and
never modified afterward, and a row changes during an iteration only because
its voxel converged in that iteration, in which case it receives exactly that
voxel's current parameter vector at the voxel's original input index (so the
output ordering is the caller's input ordering, independent of compaction). -/
theorem claimC7_write_once {P : Type} (step : ℕ → P → ℚ → P × ℚ) (tol : ℚ)
    (s : DriverState P) (hInv : SavedInv s) (n : ℕ) :
    (∀ (j : ℕ) (x : P), s.saved[j]? = some (some x) →
        (driverRun step tol n s).saved[j]? = some (some x)) ∧
    SavedInv (driverRun step tol n s) ∧
    (∀ j : ℕ, (driverIter step tol s).saved[j]? ≠ s.saved[j]? →
        ∃ v ∈ s.active, vConverged tol (updVoxel step v) = true ∧ v.idx = j ∧
          (driverIter step tol s).saved[j]? = some (some (updVoxel step v).params)) := by
  refine ⟨(driverRun_saved_mono step tol n s hInv).2,
          (driverRun_saved_mono step tol n s hInv).1, fun j hchg => ?_⟩
  have hndu : ((s.active.map (updVoxel step)).map Voxel.idx).Nodup := by
    rw [idx_map_updVoxel]; exact hInv.2.1
  have hex : ¬ ∀ z ∈ (s.active.map (updVoxel step)).filter (vConverged tol), z.idx ≠ j :=
    fun hall => hchg (writeSaved_notMem _ _ _ hall)
  push_neg at hex
  rcases hex with ⟨z, hz, hzj⟩
  have hz1 := List.mem_filter.mp hz
  rcases List.mem_map.mp hz1.1 with ⟨w, hw, rfl⟩
  refine ⟨w, hw, hz1.2, hzj, ?_⟩
  have hndW : (((s.active.map (updVoxel step)).filter (vConverged tol)).map Voxel.idx).Nodup :=
    ((List.filter_sublist _).map Voxel.idx).nodup hndu
  have hlt : (updVoxel step w).idx < s.saved.length := by
    simpa [updVoxel] using hInv.1 w hw
  rw [← hzj]
  exact writeSaved_mem _ s.saved (updVoxel step w) hz hndW hlt

/-- Witness for C7 at a concrete input: a one-voxel run starting from the
initial state; after the voxel converges (new likelihood 10, previous 10),
its parameter is stored at row 0 and survives further iterations. -/
theorem claimC7_write_once_witness :
    (driverRun (fun _ p _ => (p, 10)) 1 3
        (driverIter (fun _ p _ => (p, 10)) 1 (initState 1 fun _ => (7 : ℚ)))).saved[(0 : ℕ)]? =
      some (some 7) := by
  have hInv : SavedInv (driverIter (fun _ p _ => (p, 10)) 1 (initState 1 fun _ => (7 : ℚ))) :=
    savedInv_driverIter _ _ _ (savedInv_initState 1 _)
  have h := (claimC7_write_once (fun _ p _ => (p, 10)) 1
    (driverIter (fun _ p _ => (p, 10)) 1 (initState 1 fun _ => (7 : ℚ))) hInv 3).1 0 7
  exact h (by norm_num [driverIter, initState, updVoxel, vConverged, writeSaved,
    List.range_succ])

/-- C3 counterexample: with tolerance 1, a voxel whose absolute
log-likelihood change is exactly 1 (so `|Δllh| ≤ tol`) is NOT marked
converged: after the iteration its output row is still unwritten and it is
still active; moreover the loop guard is already false, so the loop exits
without ever writing this voxel.  The drivers mark convergence with the
strict test `np.abs(llhprev-llhcurr) < tol` (est3d.py lines 302, 644, 951,
1287), not `≤ tol`. -/
theorem claimC3_counterexample :
    |(updVoxel (fun _ (p : ℚ) _ => (p, 0)) ⟨0, 42, 1, -10, 1⟩).llhprev -
        (updVoxel (fun _ (p : ℚ) _ => (p, 0)) ⟨0, 42, 1, -10, 1⟩).llhcurr| ≤ 1 ∧
    (driverIter (fun _ (p : ℚ) _ => (p, 0)) 1 ⟨[⟨0, 42, 1, -10, 1⟩], [none]⟩).saved = [none] ∧
    (driverIter (fun _ (p : ℚ) _ => (p, 0)) 1
        ⟨[⟨0, 42, 1, -10, 1⟩], [none]⟩).active.map Voxel.idx = [0] ∧
    anyNotConv 1 (driverIter (fun _ (p : ℚ) _ => (p, 0)) 1 ⟨[⟨0, 42, 1, -10, 1⟩], [none]⟩)
      = false := by
  refine ⟨by norm_num [updVoxel], ?_, ?_, ?_⟩ <;>
    norm_num [driverIter, updVoxel, vConverged, writeSaved, anyNotConv]

/-- C3 (amended): after each iteration, a voxel is marked converged exactly
when its absolute log-likelihood change is strictly below `tol` (a change
equal to `tol` leaves the voxel unconverged); a converged voxel's current
parameter vector is written into the output buffer at its original index and
it leaves the active set, a non-converged voxel's row is untouched and it
stays active, and the iteration loop continues exactly while some active
voxel's change strictly exceeds `tol`. -/
theorem claimC3_convergence_marking {P : Type} (step : ℕ → P → ℚ → P × ℚ) (tol : ℚ)
    (s : DriverState P) (v : Voxel P) (hv : v ∈ s.active)
    (hlen : ∀ w ∈ s.active, w.idx < s.saved.length)
    (hnd : (s.active.map Voxel.idx).Nodup) :
    (|(updVoxel step v).llhprev - (updVoxel step v).llhcurr| < tol →
        (driverIter step tol s).saved[v.idx]? = some (some (updVoxel step v).params) ∧
        v.idx ∉ (driverIter step tol s).active.map Voxel.idx) ∧
    (¬ |(updVoxel step v).llhprev - (updVoxel step v).llhcurr| < tol →
        (driverIter step tol s).saved[v.idx]? = s.saved[v.idx]? ∧
        updVoxel step v ∈ (driverIter step tol s).active) ∧
    (anyNotConv tol s = true ↔ ∃ w ∈ s.active, tol < |w.llhprev - w.llhcurr|) := by
  have hndu : ((s.active.map (updVoxel step)).map Voxel.idx).Nodup := by
    rw [idx_map_updVoxel]; exact hnd
  have hu : updVoxel step v ∈ s.active.map (updVoxel step) := List.mem_map_of_mem _ hv
  have hidx : (updVoxel step v).idx = v.idx := rfl
  refine ⟨fun hconv => ?_, fun hnconv => ?_, ?_⟩
  · have hcb : vConverged tol (updVoxel step v) = true := by
      simpa [vConverged] using hconv
    have hmemW : updVoxel step v ∈ (s.active.map (updVoxel step)).filter (vConverged tol) :=
      List.mem_filter.mpr ⟨hu, hcb⟩
    have hndW : (((s.active.map (updVoxel step)).filter (vConverged tol)).map Voxel.idx).Nodup :=
      ((List.filter_sublist _).map Voxel.idx).nodup hndu
    have hlt : (updVoxel step v).idx < s.saved.length := by rw [hidx]; exact hlen v hv
    constructor
    · have := writeSaved_mem _ s.saved (updVoxel step v) hmemW hndW hlt
      rw [hidx] at this
      exact this
    · intro hmem
      rcases List.mem_map.mp hmem with ⟨u, hu2, huidx⟩
      rcases driverIter_mem_active hu2 with ⟨w, hw, rfl, hnc⟩
      have : updVoxel step w = updVoxel step v :=
        List.inj_on_of_nodup_map hndu (List.mem_map_of_mem _ hw) hu (by rw [huidx, hidx])
      rw [this, hcb] at hnc
      exact Bool.noConfusion hnc
  · have hcb : vConverged tol (updVoxel step v) = false := by
      simpa [vConverged] using hnconv
    constructor
    · refine writeSaved_notMem _ _ _ fun z hz hzj => ?_
      have hz1 := List.mem_filter.mp hz
      have : z = updVoxel step v :=
        List.inj_on_of_nodup_map hndu hz1.1 hu (by rw [hzj, hidx])
      rw [this, hcb] at hz1
      exact Bool.false_ne_true hz1.2
    · exact List.mem_filter.mpr ⟨hu, by simp [hcb]⟩
  · simp [anyNotConv, List.any_eq_true]

/-- Witness for C3 (amended) at a concrete input: a single voxel whose
likelihood change is 0 < 1 converges and its parameter 5 is written at
row 0. -/
theorem claimC3_convergence_marking_witness :
    (driverIter (fun _ (p : ℚ) _ => (p, 10)) 1 ⟨[⟨0, 5, 1, -10, 10⟩], [none]⟩).saved[(0 : ℕ)]?
      = some (some 5) := by
  have h := claimC3_convergence_marking (fun _ (p : ℚ) _ => (p, 10)) 1
    ⟨[⟨0, 5, 1, -10, 10⟩], [none]⟩ ⟨0, 5, 1, -10, 10⟩ (by simp) (by norm_num) (by simp)
  exact (h.1 (by norm_num [updVoxel])).1

/-- Modelled from the spec (glossary "vech"): half-vectorization of a square
matrix, the unique upper-triangle entries `i ≤ j` in row-major order.  The
implementation `mat2vech3D` lives in `lib/npMatrix3d.py`, which is not among
the sources. -/
def mat2vech (m : ℕ) (M : ℕ → ℕ → ℚ) : List ℚ :=
  (List.range m).flatMap fun i =>
    ((List.range m).filter fun j => decide (i ≤ j)).map fun j => M i j

/-- Modelled from the spec (glossary "vec"): full vectorization of a square
matrix, all entries including duplicates (`mat2vec3D` in the missing
`lib/npMatrix3d.py`). -/
def mat2vec (m : ℕ) (M : ℕ → ℕ → ℚ) : List ℚ :=
  (List.range m).flatMap fun i => (List.range m).map fun j => M i j

/-- Output-buffer row width allocated by FS3D, SFS3D and pSFS3D (est3d.py
lines 169, 862, 1190): `p + 1 + Σ nparams·(nparams+1)/2`. -/
def vech_savedWidth (nparams : List ℕ) (p : ℕ) : ℕ :=
  p + 1 + (nparams.map fun m => m * (m + 1) / 2).sum

/-- Output-buffer row width allocated by pFS3D (est3d.py line 514):
`p + 1 + Σ nparams²`. -/
def pFS_savedWidth (nparams : List ℕ) (p : ℕ) : ℕ :=
  p + 1 + (nparams.map fun m => m * m).sum

/-- Parameter row written by pFS3D: line 651 stores the freshly updated
`paramVector`, which lines 596-601 assemble as
`[beta, sigma2, vec(D_1), ..., vec(D_r)]` using `mat2vec3D`; no vec-to-vech
conversion happens before the write.  A covariance block is given by its
dimension and its entries. -/
def pFS_savedRow (beta : List ℚ) (sigma2 : ℚ) (Ds : List (ℕ × (ℕ → ℕ → ℚ))) : List ℚ :=
  beta ++ [sigma2] ++ Ds.flatMap fun d => mat2vec d.1 d.2

/-- Parameter row written by FS3D (lines 251-257 assemble the row with
`mat2vech3D`, line 308 stores it) and assembled blockwise by SFS3D (lines
959-969) and pSFS3D (lines 1295-1305):
`[beta, sigma2, vech(D_1), ..., vech(D_r)]`. -/
def vech_savedRow (beta : List ℚ) (sigma2 : ℚ) (Ds : List (ℕ × (ℕ → ℕ → ℚ))) : List ℚ :=
  beta ++ [sigma2] ++ Ds.flatMap fun d => mat2vech d.1 d.2

/-- C2 settlement at the failing input `p = 1`, `nparams = [2]`, one factor
with symmetric block `[[1,2],[2,3]]`: pFS3D allocates a row of width
`p + 1 + Σ nparams² = 6` (not the claimed `p + 1 + Σ nparams·(nparams+1)/2
= 5`) and writes the full-vectorized row `[beta, sigma2, 1, 2, 2, 3]`, which
differs from the half-vectorized row `[beta, sigma2, 1, 2, 3]` that its own
doc comment (est3d.py lines 424-425) promises and that the other three
variants write. -/
theorem claimC2_pFS_vec_output :
    pFS_savedWidth [2] 1 = 6 ∧ vech_savedWidth [2] 1 = 5 ∧
    pFS_savedRow [0] 0 [(2, fun i j => if i = 0 then (if j = 0 then 1 else 2)
        else (if j = 0 then 2 else 3))] = [0, 0, 1, 2, 2, 3] ∧
    vech_savedRow [0] 0 [(2, fun i j => if i = 0 then (if j = 0 then 1 else 2)
        else (if j = 0 then 2 else 3))] = [0, 0, 1, 2, 3] ∧
    ([0, 0, 1, 2, 2, 3] : List ℚ) ≠ [0, 0, 1, 2, 3] := by
  refine ⟨rfl, rfl, ?_, ?_, by decide⟩ <;>
    norm_num [pFS_savedRow, vech_savedRow, mat2vec, mat2vech, List.range_succ]

/-- Model of `np.linalg.inv` on an exact matrix: numpy raises `LinAlgError`
when the matrix is singular (here `none`); otherwise it returns the inverse,
written as adjugate over determinant. -/
def npInv {n : Type} [Fintype n] [DecidableEq n] (M : Matrix n n ℚ) :
    Option (Matrix n n ℚ) :=
  if M.det = 0 then none else some ((M.det)⁻¹ • M.adjugate)

/-- The unordered-pair normal form of an index into `vec(D_k)`: entry (i,j)
and entry (j,i) of a symmetric block are the same parameter. -/
def sortPair {m : ℕ} (ab : Fin m × Fin m) : Fin m × Fin m :=
  if ab.1 ≤ ab.2 then ab else (ab.2, ab.1)

/-- Modelled from the spec: the full-vectorized information block
(`get_covdldDk1Dk23D(..., vec=True)`, in the missing `lib/npMatrix3d.py`,
called from est3d.py lines 586 and 1257) indexes rows and columns by entries
(i,j) of the symmetric block `D_k`; since (i,j) and (j,i) are the same
parameter, every entry depends only on the unordered pairs, so rows (i,j) and
(j,i) repeat — the matrix is rank-deficient by construction. -/
def vecInfoMat {m : ℕ} (h : Fin m × Fin m → Fin m × Fin m → ℚ) :
    Matrix (Fin m × Fin m) (Fin m × Fin m) ℚ :=
  fun a b => h (sortPair a) (sortPair b)

/-- The inverse that the pseudo variants actually apply to the
full-vectorized information matrix: pFS3D line 606 computes
`np.linalg.inv(FisherInfoMat)` and pSFS3D line 1257 computes
`np.linalg.inv(get_covdldDk1Dk23D(..., vec=True))` — a regular inverse, not
the Moore-Penrose pseudo-inverse that both doc comments (lines 375, 1038)
specify. -/
def pseudoVariantInfoInverse {m : ℕ} (h : Fin m × Fin m → Fin m × Fin m → ℚ) :
    Option (Matrix (Fin m × Fin m) (Fin m × Fin m) ℚ) :=
  npInv (vecInfoMat h)

/-- C1 settlement: for a factor with `nparams = 2` (`m = 2`), whatever the
underlying information values are, the full-vectorized information matrix has
equal rows at the duplicated indices (0,1) and (1,0), hence determinant zero,
so the regular inverse that pFS3D and pSFS3D apply does not exist
(`np.linalg.inv` raises `LinAlgError`): the code does not perform the
pseudo-inverse update its own documentation and the spec require. -/
theorem claimC1_pseudo_regular_inverse_fails
    (h : Fin 2 × Fin 2 → Fin 2 × Fin 2 → ℚ) :
    pseudoVariantInfoInverse h = none := by
  have hrow : vecInfoMat h ((0 : Fin 2), (1 : Fin 2)) = vecInfoMat h (1, 0) := by
    funext b
    have h1 : sortPair ((0 : Fin 2), (1 : Fin 2)) = (0, 1) := by decide
    have h2 : sortPair ((1 : Fin 2), (0 : Fin 2)) = (0, 1) := by decide
    simp [vecInfoMat, h1, h2]
  have hdet : (vecInfoMat h).det = 0 :=
    Matrix.det_zero_of_row_eq (by decide) hrow
  simp [pseudoVariantInfoInverse, npInv, hdet]

/-- Witness for C1 at a concrete input: the all-ones information block. -/
theorem claimC1_pseudo_regular_inverse_fails_witness :
    pseudoVariantInfoInverse (m := 2) (fun _ _ => (1 : ℚ)) = none :=
  claimC1_pseudo_regular_inverse_fails (fun _ _ => (1 : ℚ))

/-- D-update loop of SFS3D (est3d.py lines 918-938): the factors are
processed one at a time, and the cached matrix `D(I+Z'ZD)^(-1)` is recomputed
from the updated dictionary after every single factor's update (lines 936-938
sit inside the factor loop).  `upd k cache d` abstracts the per-factor update
of lines 923-929 (inverse information block times score, scaled by the step
size, applied through vech and the PSD projection); `recompute` abstracts
lines 937-938. -/
def SFS_Dloop {M C : Type} (upd : ℕ → C → M → M) (recompute : (ℕ → M) → C)
    (r : ℕ) (D0 : ℕ → M) (c0 : C) : (ℕ → M) × C :=
  (List.range r).foldl
    (fun st k =>
      let d := Function.update st.1 k (upd k st.2 (st.1 k))
      (d, recompute d))
    (D0, c0)

/-- D-update loop of pSFS3D (est3d.py lines 1253-1275): every factor's update
reads the same `DinvIplusZtZD` that was computed before the loop (line 1257
uses the variable, which is not reassigned inside the loop), and the cache is
re-derived once, after all factors (lines 1274-1275 sit outside the factor
loop). -/
def pSFS_Dloop {M C : Type} (upd : ℕ → C → M → M) (recompute : (ℕ → M) → C)
    (r : ℕ) (D0 : ℕ → M) (c0 : C) : (ℕ → M) × C :=
  let d := (List.range r).foldl (fun Dd k => Function.update Dd k (upd k c0 (Dd k))) D0
  (d, recompute d)

/-- C8 counterexample: a concrete two-factor instance on which pSFS3D's
factor-2 update provably uses the stale pre-loop cache: the result differs
from the recompute-after-every-factor schedule that the claim asserts for
both Simplified variants (and which SFS3D does follow). -/
theorem claimC8_counterexample :
    (pSFS_Dloop (fun _ c d => c + d) (fun D => D 0 + D 1) 2
        (fun k => if k = 0 then (1 : ℚ) else 10) 100).1 1 = 110 ∧
    (SFS_Dloop (fun _ c d => c + d) (fun D => D 0 + D 1) 2
        (fun k => if k = 0 then (1 : ℚ) else 10) 100).1 1 = 121 ∧
    (110 : ℚ) ≠ 121 := by
  refine ⟨?_, ?_, by norm_num⟩ <;>
    norm_num [pSFS_Dloop, SFS_Dloop, List.range_succ, Function.update]

/-- C8 (amended): within one iteration the per-factor blocks are updated one
factor at a time in both Simplified variants, but only SFS3D re-derives the
cached `D(I+Z'ZD)^(-1)` after every factor's update (the last factor's update
sees the cache recomputed from all earlier updates, and after every step the
cache equals `recompute` of the current dictionary); pSFS3D feeds the
iteration-initial cache to every factor's update — its dictionary result does
not depend on `recompute` at all — and re-derives the cache exactly once,
after the final factor. -/
theorem claimC8_cache_recompute_schedule {M C : Type} (upd : ℕ → C → M → M)
    (rec1 rec2 : (ℕ → M) → C) (r : ℕ) (D0 : ℕ → M) (c0 : C) :
    (pSFS_Dloop upd rec1 r D0 c0).1 = (pSFS_Dloop upd rec2 r D0 c0).1 ∧
    (pSFS_Dloop upd rec1 r D0 c0).2 = rec1 ((pSFS_Dloop upd rec1 r D0 c0).1) ∧
    (SFS_Dloop upd rec1 (r + 1) D0 c0 =
      ((Function.update (SFS_Dloop upd rec1 r D0 c0).1 r
          (upd r (SFS_Dloop upd rec1 r D0 c0).2 ((SFS_Dloop upd rec1 r D0 c0).1 r))),
        rec1 (Function.update (SFS_Dloop upd rec1 r D0 c0).1 r
          (upd r (SFS_Dloop upd rec1 r D0 c0).2 ((SFS_Dloop upd rec1 r D0 c0).1 r))))) ∧
    (0 < r → (SFS_Dloop upd rec1 r D0 c0).2 = rec1 ((SFS_Dloop upd rec1 r D0 c0).1)) := by
  have hstep : ∀ m : ℕ, SFS_Dloop upd rec1 (m + 1) D0 c0 =
      ((Function.update (SFS_Dloop upd rec1 m D0 c0).1 m
          (upd m (SFS_Dloop upd rec1 m D0 c0).2 ((SFS_Dloop upd rec1 m D0 c0).1 m))),
        rec1 (Function.update (SFS_Dloop upd rec1 m D0 c0).1 m
          (upd m (SFS_Dloop upd rec1 m D0 c0).2 ((SFS_Dloop upd rec1 m D0 c0).1 m)))) := by
    intro m
    simp [SFS_Dloop, List.range_succ, List.foldl_append]
  refine ⟨rfl, rfl, hstep r, fun hr => ?_⟩
  obtain ⟨m, rfl⟩ : ∃ m, r = m + 1 := ⟨r - 1, by omega⟩
  rw [hstep m]

/-- Witness for C8 (amended) at a concrete input: with one factor, SFS3D's
cache after the iteration equals `recompute` of the final dictionary. -/
theorem claimC8_cache_recompute_schedule_witness :
    (SFS_Dloop (fun _ (c : ℚ) (d : ℚ) => c + d) (fun D => D 0) 1 (fun _ => (1 : ℚ)) 5).2 =
      (fun D : ℕ → ℚ => D 0)
        ((SFS_Dloop (fun _ (c : ℚ) (d : ℚ) => c + d) (fun D => D 0) 1 (fun _ => (1 : ℚ)) 5).1) :=
  (claimC8_cache_recompute_schedule (fun _ (c : ℚ) (d : ℚ) => c + d) (fun D => D 0)
    (fun D => D 0) 1 (fun _ => (1 : ℚ)) 5).2.2.2 (by norm_num)

/-- Configuration entries of the estimation stage relevant to tolerance
selection (`blmm_estimate.main`, src/blmm_estimate.py): the optional `tol`
and `method` entries of `inputs`. -/
structure EstInputs where
  tol : Option ℚ
  method : Option String

/-- blmm_estimate.py lines 68-72: the stage computes the tolerance as
`inputs['tol']` when present, else the default `1e-6`. -/
def configuredTol (i : EstInputs) : ℚ := i.tol.getD (1 / 1000000)

/-- blmm_estimate.py lines 99, 102, 105, 108: every estimator call passes the
literal `1e-6` as the tolerance argument; the `tol` variable computed at
lines 68-72 is never used. -/
def passedTol : ℚ := 1 / 1000000

/-- C9 settlement at the failing input `inputs = {tol: 1/100}`: the tolerance
the estimation stage actually passes to the selected estimator is the literal
`1e-6`, not the caller-supplied `inputs['tol']` that the stage itself
computes at lines 68-72 and that the claim (and the input contract) say is
passed. -/
theorem claimC9_tolerance_not_passed :
    configuredTol ⟨some (1 / 100), none⟩ = 1 / 100 ∧
    passedTol = 1 / 1000000 ∧
    configuredTol ⟨some (1 / 100), none⟩ ≠ passedTol := by
  refine ⟨rfl, rfl, ?_⟩
  norm_num [configuredTol, passedTol]

/-- Parameter names of FS3D (est3d.py line 82): no `reml` parameter. -/
def FS3D_params : List String :=
  ["XtX", "XtY", "ZtX", "ZtY", "ZtZ", "XtZ", "YtZ", "YtY", "YtX",
   "nlevels", "nparams", "tol", "n"]

/-- Parameter names of pFS3D (est3d.py line 428): no `reml` parameter. -/
def pFS3D_params : List String :=
  ["XtX", "XtY", "ZtX", "ZtY", "ZtZ", "XtZ", "YtZ", "YtY", "YtX",
   "nlevels", "nparams", "tol", "n"]

/-- Parameter names of SFS3D (est3d.py line 773): no `reml` parameter. -/
def SFS3D_params : List String :=
  ["XtX", "XtY", "ZtX", "ZtY", "ZtZ", "XtZ", "YtZ", "YtY", "YtX",
   "nlevels", "nparams", "tol", "n"]

/-- Parameter names of pSFS3D (est3d.py line 1102): declares `reml`. -/
def pSFS3D_params : List String :=
  ["XtX", "XtY", "ZtX", "ZtY", "ZtZ", "XtZ", "YtZ", "YtY", "YtX",
   "nlevels", "nparams", "tol", "n", "reml"]

/-- Model of Python call semantics for the dispatcher: keyword-argument
binding happens before the callee's body runs, and a keyword that matches no
declared parameter raises `TypeError` (so no iteration of the estimator can
run). -/
def callWithKwargs (ps : List String) (kwargs : List String) :
    Except String (List String) :=
  if kwargs.all fun k => ps.contains k then Except.ok ps
  else Except.error "TypeError"

/-- blmm_estimate.py lines 98-108: the dispatcher selects the estimator from
`method` (default `pSFS`, lines 75-78) and calls it with the keyword argument
`reml=REML`; `none` models the fall-through when no branch matches (the later
use of `paramVec` then raises `NameError`). -/
def dispatchEstimator (method : String) : Option (Except String (List String)) :=
  if method = "pSFS" then some (callWithKwargs pSFS3D_params ["reml"])
  else if method = "FS" then some (callWithKwargs FS3D_params ["reml"])
  else if method = "SFS" then some (callWithKwargs SFS3D_params ["reml"])
  else if method = "pFS" then some (callWithKwargs pFS3D_params ["reml"])
  else none

/-- C10: selecting method FS, SFS or pFS makes the dispatcher call an
estimator that does not declare the supplied keyword argument `reml`, so the
call raises `TypeError` before any iteration runs; only the default method
pSFS reaches an estimator that accepts `reml`. -/
theorem claimC10_reml_typeerror :
    dispatchEstimator "FS" = some (Except.error "TypeError") ∧
    dispatchEstimator "SFS" = some (Except.error "TypeError") ∧
    dispatchEstimator "pFS" = some (Except.error "TypeError") ∧
    dispatchEstimator "pSFS" = some (Except.ok pSFS3D_params) := by
  refine ⟨?_, ?_, ?_, ?_⟩ <;> rfl

/-- A square rational matrix carrying its dimension: one per-factor
random-effect covariance block. -/
structure SqMat where
  dim : ℕ
  entries : Matrix (Fin dim) (Fin dim) ℚ

/-- Index type of the block-diagonal assembly of a list of square blocks. -/
def BlocksIx : List SqMat → Type
  | [] => Empty
  | b :: bs => Fin b.dim ⊕ BlocksIx bs

instance blocksIxFintype : (bs : List SqMat) → Fintype (BlocksIx bs)
  | [] => inferInstanceAs (Fintype Empty)
  | b :: bs =>
      letI := blocksIxFintype bs
      inferInstanceAs (Fintype (Fin b.dim ⊕ BlocksIx bs))

/-- Block-diagonal matrix with the given diagonal blocks, zero elsewhere. -/
def assemble : (bs : List SqMat) → Matrix (BlocksIx bs) (BlocksIx bs) ℚ
  | [] => fun a _ => a.elim
  | b :: bs => Matrix.fromBlocks b.entries 0 0 (assemble bs)

/-- Modelled from the spec (§3 ParameterState, `getDfromDict3D` in the
missing `lib/npMatrix3d.py`): the full covariance `D` is block-diagonal,
built by tiling `Ddict[k]` `nlevels[k]` times along the diagonal, factors in
order. -/
def getDfromDict (r : ℕ) (nlevels : ℕ → ℕ) (Ddict : ℕ → SqMat) : List SqMat :=
  (List.range r).flatMap fun k => List.replicate (nlevels k) (Ddict k)

theorem posSemidef_fromBlocks_diag {l m : Type} [Fintype l] [Fintype m]
    {A : Matrix l l ℚ} {B : Matrix m m ℚ}
    (hA : A.PosSemidef) (hB : B.PosSemidef) :
    (Matrix.fromBlocks A 0 0 B).PosSemidef := by
  constructor
  · unfold Matrix.IsHermitian
    rw [Matrix.fromBlocks_conjTranspose, hA.1, hB.1]
    simp
  · intro x
    have hx : Sum.elim (x ∘ Sum.inl) (x ∘ Sum.inr) = x := Sum.elim_comp_inl_inr x
    rw [← hx, Matrix.fromBlocks_mulVec]
    simp only [Matrix.zero_mulVec, add_zero, zero_add]
    have hstar : star (Sum.elim (x ∘ Sum.inl) (x ∘ Sum.inr))
        = Sum.elim (star (x ∘ Sum.inl)) (star (x ∘ Sum.inr)) := by
      funext i
      cases i <;> rfl
    rw [hstar, Matrix.sum_elim_dotProduct_sum_elim]
    exact add_nonneg (hA.2 _) (hB.2 _)

theorem assemble_posSemidef :
    ∀ (bs : List SqMat), (∀ b ∈ bs, b.entries.PosSemidef) → (assemble bs).PosSemidef
  | [], _ => by
      constructor
      · funext a
        exact Empty.elim a
      · intro x
        exact le_of_eq rfl
  | b :: bs, h =>
      posSemidef_fromBlocks_diag (h b (by simp))
        (assemble_posSemidef bs fun c hc => h c (by simp [hc]))

/-- C5: in every variant, each per-factor block stored in `Ddict` is an
output of the PSD projection `makeDnnd3D` — it is applied at every assignment
site, at initialization (est3d.py lines 130, 476, 823, 1152) and immediately
after each candidate update (lines 273, 617, 929, 1263), before the block is
used in any subsequent derivative, information or likelihood computation —
so, given the projection's contract (spec: negative eigenvalues clipped to
zero and the matrix reconstructed, hence a symmetric positive-semidefinite
result; `makeDnnd3D` lives in the missing `lib/npMatrix3d.py`), every
`Ddict[k]` and the assembled block-diagonal `D` are symmetric PSD.  Over ℚ
(trivial star) `Matrix.PosSemidef` is exactly symmetry plus nonnegativity of
the quadratic form. -/
theorem claimC5_psd_after_update (makeDnnd : SqMat → SqMat)
    (hM : ∀ A : SqMat, (makeDnnd A).entries.PosSemidef)
    (r : ℕ) (nlevels : ℕ → ℕ) (Ddict : ℕ → SqMat)
    (hD : ∀ k : ℕ, ∃ A : SqMat, Ddict k = makeDnnd A) :
    (∀ k : ℕ, (Ddict k).entries.PosSemidef) ∧
    (assemble (getDfromDict r nlevels Ddict)).PosSemidef := by
  have hPSD : ∀ k, (Ddict k).entries.PosSemidef := fun k => by
    rcases hD k with ⟨A, hA⟩
    rw [hA]
    exact hM A
  refine ⟨hPSD, assemble_posSemidef _ fun b hb => ?_⟩
  rcases List.mem_flatMap.mp hb with ⟨k, hk, hbk⟩
  rw [List.eq_of_mem_replicate hbk]
  exact hPSD k

/-- Witness for C5 at a concrete input: the zero projection (every output
block is the zero matrix, which is symmetric PSD) with one factor of one
level and dimension one. -/
theorem claimC5_psd_after_update_witness :
    (assemble (getDfromDict 1 (fun _ => 1) (fun _ => ⟨1, 0⟩))).PosSemidef :=
  (claimC5_psd_after_update (fun A => ⟨A.dim, 0⟩)
    (fun A => ⟨by simp [Matrix.IsHermitian], fun x => by simp⟩)
    1 (fun _ => 1) (fun _ => ⟨1, 0⟩) (fun _ => ⟨⟨1, 0⟩, rfl⟩)).2

end BLMM
